import Mathlib

/-!
Verification of the kanban board reducer and activity log
(`src/context/KanbanContext.tsx`).

The TypeScript reducer, activity reducer, hydration initializer and
`recordAction` text derivation are embedded as executable Lean functions,
and the documented properties of the board state and activity log are
proved against them.
-/

namespace Kanban

/-- Card record `id / title / description?` of the board state. -/
structure Card where
  id : String
  title : String
  description : Option String
deriving DecidableEq, Repr

/-- The three fixed column identifiers. -/
inductive Column where
  | todo
  | inprogress
  | done
deriving DecidableEq, Repr

/-- Board state: one ordered card list per column
(`Record Column Card[]` in the source). -/
structure State where
  todo : List Card
  inprogress : List Card
  done : List Card
deriving DecidableEq, Repr

/-- The partial card used by the update action.  Each field is optional
(`Partial Card` in the source); an absent field leaves the card's field
untouched by the object spread, a present field overwrites it.  The
`description` field is itself optional in `Card`, hence the nested option. -/
structure Changes where
  id : Option String := none
  title : Option String := none
  description : Option (Option String) := none
deriving DecidableEq, Repr

/-- Board actions of the reducer. -/
inductive Action where
  | add (column : Column) (card : Card)
  | move (fromCol toCol : Column) (cardId : String) (index : Option Int)
  | remove (column : Column) (cardId : String)
  | update (column : Column) (cardId : String) (changes : Changes)
  | set (state : State)
deriving DecidableEq, Repr

/-- Column projection `state[c]`. -/
def getCol (s : State) : Column → List Card
  | .todo => s.todo
  | .inprogress => s.inprogress
  | .done => s.done

/-- Column replacement: the spread `state` with column `c` set to `l`. -/
def setCol (s : State) : Column → List Card → State
  | .todo, l => { s with todo := l }
  | .inprogress, l => { s with inprogress := l }
  | .done, l => { s with done := l }

/-- JS `Array.prototype.findIndex`: index of the first element satisfying
the predicate; `none` models the JS result `-1`. -/
def findIndex (p : α → Bool) : List α → Option Nat
  | [] => none
  | a :: l => if p a then some 0 else (findIndex p l).map (fun i => i + 1)

/-- `Math.max(0, Math.min(t, len))`, the index clamp of the move case,
returned as a natural number. -/
def clampIdx (t : Int) (len : Nat) : Nat :=
  (max 0 (min t (len : Int))).toNat

/-- Object spread merge of the update case: fields present in
`changes` overwrite the card's fields. -/
def applyChanges (c : Card) (ch : Changes) : Card :=
  { id := ch.id.getD c.id
    title := ch.title.getD c.title
    description :=
      match ch.description with
      | none => c.description
      | some d => d }

/-- The `move` case of the reducer: find the card in the source column
(`findIndex`, bailing out on `-1`), remove it (`slice`/`concat`), default
the target index to the destination length, clamp, and splice the card
back in.  The inner `none` branch of the indexing is unreachable because
`findIndex` returns an in-bounds index. -/
def moveCard (state : State) (fromCol toCol : Column) (cardId : String)
    (index : Option Int) : State :=
  let fromArr := getCol state fromCol
  let toArr := getCol state toCol
  match findIndex (fun c => c.id == cardId) fromArr with
  | none => state
  | some sourceIndex =>
    match fromArr[sourceIndex]? with
    | none => state
    | some card =>
      let newFrom := fromArr.take sourceIndex ++ fromArr.drop (sourceIndex + 1)
      let targetIndex : Int := index.getD (toArr.length : Int)
      if fromCol = toCol then
        let adjustedIndex := clampIdx targetIndex newFrom.length
        setCol state fromCol
          (newFrom.take adjustedIndex ++ card :: newFrom.drop adjustedIndex)
      else
        let insertIndex := clampIdx targetIndex toArr.length
        setCol (setCol state fromCol newFrom) toCol
          (toArr.take insertIndex ++ card :: toArr.drop insertIndex)

/-- The board reducer of `KanbanContext`. -/
def reducer (state : State) (action : Action) : State :=
  match action with
  | .add column card => setCol state column (card :: getCol state column)
  | .move fromCol toCol cardId index => moveCard state fromCol toCol cardId index
  | .remove column cardId =>
      setCol state column ((getCol state column).filter (fun c => c.id != cardId))
  | .update column cardId changes =>
      setCol state column
        ((getCol state column).map
          (fun c => if c.id == cardId then applyChanges c changes else c))
  | .set s => s

/-- Activity entry: derived text plus `Date.now()` timestamp. -/
structure Activity where
  text : String
  ts : Nat
deriving DecidableEq, Repr

/-- Activity log state: the `actions` array. -/
structure ActivityState where
  actions : List Activity
deriving DecidableEq, Repr

/-- Actions of the activity reducer. -/
inductive ActivityAction where
  | push (text : String)
  | set (actions : List Activity)
deriving DecidableEq, Repr

/-- JS `slice(-n)`: the last `n` elements (the whole list when it is
shorter than `n`). -/
def lastN (n : Nat) (l : List α) : List α := l.drop (l.length - n)

/-- Worker for the dedup filter
`arr.filter((a, i) => arr.findIndex(b => b.text === a.text) === i)`:
an element is kept exactly when its text has not occurred earlier, so the
first occurrence of each text survives, in order of first occurrence.
`seen` collects the texts already encountered. -/
def dedupByTextAux (seen : List String) : List Activity → List Activity
  | [] => []
  | a :: l =>
      if a.text ∈ seen then dedupByTextAux seen l
      else a :: dedupByTextAux (a.text :: seen) l

/-- The dedup-by-text filter of the activity reducer and the hydration
initializer. -/
def dedupByText (l : List Activity) : List Activity := dedupByTextAux [] l

/-- The activity reducer.  `now` stands for `Date.now()` at the time the
push is processed. -/
def activityReducer (now : Nat) (state : ActivityState)
    (action : ActivityAction) : ActivityState :=
  match action with
  | .push text =>
      let act : Activity := { text := text, ts := now }
      let concatenated := state.actions ++ [act]
      let deduped := dedupByText concatenated
      { actions := lastN 5 deduped }
  | .set actions => { actions := lastN 5 actions }

/-- The lazy initializer of the activity store for the case where the
stored blob parses to an array: dedup by text, then keep the last 5. -/
def hydrateActivity (parsed : List Activity) : ActivityState :=
  { actions := lastN 5 (dedupByText parsed) }

/-- Display names of the columns (`getReadableName`). -/
def getReadableName : Column → String
  | .todo => "To Do"
  | .inprogress => "In Progress"
  | .done => "Done"

/-- The activity text `recordAction` derives from an action against the
pre-mutation state `s`: title lookup in the relevant column of `s`, raw
card id as fallback, no text for `set`. -/
def activityText (s : State) (a : Action) : Option String :=
  match a with
  | .add _ card => some (card.title ++ " created")
  | .remove column cardId =>
      let found := (getCol s column).find? (fun c => c.id == cardId)
      let title := match found with | some c => c.title | none => cardId
      some (title ++ " deleted")
  | .move fromCol toCol cardId _ =>
      let found := (getCol s fromCol).find? (fun c => c.id == cardId)
      let title := match found with | some c => c.title | none => cardId
      some (title ++ " moved to " ++ getReadableName toCol)
  | .update column cardId _ =>
      let found := (getCol s column).find? (fun c => c.id == cardId)
      let title := match found with | some c => c.title | none => cardId
      some (title ++ " updated")
  | .set _ => none

/-- All cards on the board, source column order. -/
def allCards (s : State) : List Card := s.todo ++ s.inprogress ++ s.done

/-- The documented board invariant: no card id occurs twice across the
three columns. -/
def Inv (s : State) : Prop := ((allCards s).map Card.id).Nodup

instance (s : State) : Decidable (Inv s) :=
  inferInstanceAs (Decidable (((allCards s).map Card.id).Nodup))

/-! ### Column projection and replacement -/

theorem getCol_setCol_self (s : State) (c : Column) (l : List Card) :
    getCol (setCol s c l) c = l := by
  cases c <;> rfl

theorem getCol_setCol_ne (s : State) {c c' : Column} (l : List Card)
    (h : c' ≠ c) : getCol (setCol s c l) c' = getCol s c' := by
  cases c <;> cases c' <;> first | rfl | exact absurd rfl h

theorem setCol_getCol (s : State) (c : Column) :
    setCol s c (getCol s c) = s := by
  cases c <;> rfl

theorem state_ext_getCol {s s' : State}
    (h : ∀ c, getCol s c = getCol s' c) : s = s' := by
  cases s; cases s'
  have ht := h .todo
  have hi := h .inprogress
  have hd := h .done
  simp only [getCol] at ht hi hd
  simp [ht, hi, hd]

/-! ### findIndex -/

theorem findIndex_eq_none_iff {p : α → Bool} {l : List α} :
    findIndex p l = none ↔ ∀ a ∈ l, p a = false := by
  induction l with
  | nil => simp [findIndex]
  | cons b l ih =>
    by_cases hb : p b
    · simp [findIndex, hb]
    · simp only [findIndex, if_neg hb, Option.map_eq_none]
      simp only [Bool.not_eq_true] at hb
      simp [ih, hb]

theorem findIndex_some {p : α → Bool} {l : List α} {i : Nat}
    (h : findIndex p l = some i) : ∃ a, l[i]? = some a ∧ p a = true := by
  induction l generalizing i with
  | nil => simp [findIndex] at h
  | cons b l ih =>
    rw [findIndex] at h
    by_cases hb : p b
    · rw [if_pos hb] at h
      cases h
      exact ⟨b, by simp, hb⟩
    · rw [if_neg hb] at h
      rcases Option.map_eq_some.mp h with ⟨j, hj, hji⟩
      rcases ih hj with ⟨a, ha, hpa⟩
      subst hji
      exact ⟨a, by simpa using ha, hpa⟩

theorem findIndex_of_exists {p : α → Bool} {l : List α}
    (h : ∃ a ∈ l, p a = true) : ∃ i, findIndex p l = some i := by
  induction l with
  | nil => simp at h
  | cons b l ih =>
    by_cases hb : p b
    · exact ⟨0, by simp [findIndex, hb]⟩
    · rcases h with ⟨a, ha, hpa⟩
      rcases List.mem_cons.mp ha with rfl | ha'
      · exact absurd hpa hb
      · rcases ih ⟨a, ha', hpa⟩ with ⟨i, hi⟩
        exact ⟨i + 1, by simp [findIndex, hb, hi]⟩

/-! ### Splicing: remove at an index, insert at an index -/

theorem eq_take_cons_drop_of_getElem {l : List α} {i : Nat} {a : α}
    (h : l[i]? = some a) : l = l.take i ++ a :: l.drop (i + 1) := by
  induction l generalizing i with
  | nil => simp at h
  | cons b l ih =>
    cases i with
    | zero =>
      simp only [List.getElem?_cons_zero, Option.some.injEq] at h
      simp [h]
    | succ i =>
      simp only [List.getElem?_cons_succ] at h
      simpa using ih h

theorem perm_cons_removeAt {l : List α} {i : Nat} {a : α}
    (h : l[i]? = some a) :
    List.Perm l (a :: (l.take i ++ l.drop (i + 1))) := by
  have h2 : List.Perm (l.take i ++ a :: l.drop (i + 1))
      (a :: (l.take i ++ l.drop (i + 1))) := List.perm_middle
  rw [← eq_take_cons_drop_of_getElem h] at h2
  exact h2

theorem length_removeAt {l : List α} {i : Nat} (h : i < l.length) :
    (l.take i ++ l.drop (i + 1)).length = l.length - 1 := by
  simp only [List.length_append, List.length_take, List.length_drop]
  omega

theorem splice_perm (l : List α) (k : Nat) (a : α) :
    List.Perm (l.take k ++ a :: l.drop k) (a :: l) := by
  have h : List.Perm (l.take k ++ a :: l.drop k)
      (a :: (l.take k ++ l.drop k)) := List.perm_middle
  rwa [List.take_append_drop] at h

theorem splice_getElem (l : List α) (k : Nat) (a : α) (h : k ≤ l.length) :
    (l.take k ++ a :: l.drop k)[k]? = some a := by
  have hlen : (l.take k).length = k := by
    simp [List.length_take, Nat.min_eq_left h]
  rw [List.getElem?_append_right (by omega)]
  simp [hlen]

theorem splice_eraseIdx (l : List α) (k : Nat) (a : α) (h : k ≤ l.length) :
    (l.take k ++ a :: l.drop k).eraseIdx k = l := by
  induction k generalizing l with
  | zero => simp
  | succ k ih =>
    cases l with
    | nil => simp at h
    | cons b l =>
      simp only [List.take_succ_cons, List.drop_succ_cons, List.cons_append,
        List.eraseIdx_cons_succ, List.cons.injEq, true_and]
      exact ih l (by simpa using h)

/-! ### The index clamp -/

theorem clampIdx_le (t : Int) (len : Nat) : clampIdx t len ≤ len := by
  unfold clampIdx
  omega

theorem clampIdx_of_ge {t : Int} (len : Nat) (h : (len : Int) ≤ t) :
    clampIdx t len = len := by
  unfold clampIdx
  omega

/-! ### Characterization of the move case once the card is found -/

theorem moveCard_eq_of_found {s : State} {f t : Column} {cardId : String}
    {idx : Option Int} {i : Nat} {card : Card}
    (hfi : findIndex (fun c => c.id == cardId) (getCol s f) = some i)
    (hget : (getCol s f)[i]? = some card) :
    moveCard s f t cardId idx =
      if f = t then
        setCol s f
          ((((getCol s f).take i ++ (getCol s f).drop (i + 1)).take
              (clampIdx (idx.getD ((getCol s t).length : Int))
                ((getCol s f).take i ++ (getCol s f).drop (i + 1)).length)) ++
            card ::
              (((getCol s f).take i ++ (getCol s f).drop (i + 1)).drop
                (clampIdx (idx.getD ((getCol s t).length : Int))
                  ((getCol s f).take i ++ (getCol s f).drop (i + 1)).length)))
      else
        setCol (setCol s f ((getCol s f).take i ++ (getCol s f).drop (i + 1))) t
          (((getCol s t).take
              (clampIdx (idx.getD ((getCol s t).length : Int))
                (getCol s t).length)) ++
            card ::
              ((getCol s t).drop
                (clampIdx (idx.getD ((getCol s t).length : Int))
                  (getCol s t).length))) := by
  unfold moveCard
  simp only [hfi, hget]

/-! ### Permutation bookkeeping for the three-column concatenation -/

theorem perm_transfer_left {A B N ins : List α} {card : α}
    (hf : List.Perm A (card :: N)) (ht : List.Perm ins (card :: B)) :
    List.Perm (N ++ ins) (A ++ B) := by
  have h1 : List.Perm (N ++ ins) (N ++ (card :: B)) := List.Perm.append_left N ht
  have h2 : List.Perm (N ++ card :: B) (card :: (N ++ B)) := List.perm_middle
  have h3 : List.Perm (A ++ B) (card :: (N ++ B)) := List.Perm.append_right B hf
  exact (h1.trans h2).trans h3.symm

theorem perm_transfer_right {A B N ins : List α} {card : α}
    (hf : List.Perm B (card :: N)) (ht : List.Perm ins (card :: A)) :
    List.Perm (ins ++ N) (A ++ B) := by
  have h1 : List.Perm (ins ++ N) (card :: (A ++ N)) := List.Perm.append_right N ht
  have h2 : List.Perm (A ++ B) (A ++ (card :: N)) := List.Perm.append_left A hf
  have h3 : List.Perm (A ++ card :: N) (card :: (A ++ N)) := List.perm_middle
  exact h1.trans ((h2.trans h3).symm)

theorem perm_transfer_outer {A B C N ins : List α} {card : α}
    (hf : List.Perm A (card :: N)) (ht : List.Perm ins (card :: C)) :
    List.Perm (N ++ B ++ ins) (A ++ B ++ C) := by
  rw [List.append_assoc, List.append_assoc]
  have h1 : List.Perm (B ++ ins) (B ++ (card :: C)) := List.Perm.append_left B ht
  have h2 : List.Perm (B ++ card :: C) (card :: (B ++ C)) := List.perm_middle
  have h3 : List.Perm (N ++ (B ++ ins)) (N ++ (card :: (B ++ C))) :=
    List.Perm.append_left N (h1.trans h2)
  have h4 : List.Perm (N ++ card :: (B ++ C)) (card :: (N ++ (B ++ C))) :=
    List.perm_middle
  have h5 : List.Perm (A ++ (B ++ C)) (card :: (N ++ (B ++ C))) :=
    List.Perm.append_right (B ++ C) hf
  exact (h3.trans h4).trans h5.symm

theorem perm_transfer_outer2 {A B C N ins : List α} {card : α}
    (hf : List.Perm C (card :: N)) (ht : List.Perm ins (card :: A)) :
    List.Perm (ins ++ B ++ N) (A ++ B ++ C) := by
  rw [List.append_assoc, List.append_assoc]
  have h1 : List.Perm (ins ++ (B ++ N)) (card :: (A ++ (B ++ N))) :=
    List.Perm.append_right (B ++ N) ht
  have h2 : List.Perm (B ++ C) (B ++ (card :: N)) := List.Perm.append_left B hf
  have h3 : List.Perm (B ++ card :: N) (card :: (B ++ N)) := List.perm_middle
  have h4 : List.Perm (A ++ (B ++ C)) (A ++ (card :: (B ++ N))) :=
    List.Perm.append_left A (h2.trans h3)
  have h5 : List.Perm (A ++ card :: (B ++ N)) (card :: (A ++ (B ++ N))) :=
    List.perm_middle
  exact h1.trans ((h4.trans h5).symm)

theorem allCards_setCol_perm {s : State} {c : Column} {l : List Card}
    (h : List.Perm l (getCol s c)) :
    List.Perm (allCards (setCol s c l)) (allCards s) := by
  cases c with
  | todo =>
      exact List.Perm.append_right _ (List.Perm.append_right _ (by simpa [getCol] using h))
  | inprogress =>
      exact List.Perm.append_right _ (List.Perm.append_left _ (by simpa [getCol] using h))
  | done =>
      exact List.Perm.append_left _ (by simpa [getCol] using h)

theorem allCards_transfer_perm {s : State} {f t : Column} (hft : f ≠ t)
    {N ins : List Card} {card : Card}
    (hf : List.Perm (getCol s f) (card :: N))
    (ht : List.Perm ins (card :: getCol s t)) :
    List.Perm (allCards (setCol (setCol s f N) t ins)) (allCards s) := by
  cases f <;> cases t <;> simp only [getCol] at hf ht <;>
    first
    | exact absurd rfl hft
    | · show List.Perm _ (s.todo ++ s.inprogress ++ s.done)
        simp only [allCards, setCol]
        first
        | exact List.Perm.append_right _ (perm_transfer_left hf ht)
        | exact List.Perm.append_right _ (perm_transfer_right hf ht)
        | exact perm_transfer_outer hf ht
        | exact perm_transfer_outer2 hf ht
        | · rw [List.append_assoc, List.append_assoc]
            exact List.Perm.append_left _ (perm_transfer_left hf ht)
        | · rw [List.append_assoc, List.append_assoc]
            exact List.Perm.append_left _ (perm_transfer_right hf ht)

theorem allCards_moveCard_perm (s : State) (f t : Column) (cardId : String)
    (idx : Option Int) :
    List.Perm (allCards (moveCard s f t cardId idx)) (allCards s) := by
  rcases hfi : findIndex (fun c => c.id == cardId) (getCol s f) with _ | i
  · unfold moveCard
    simp only [hfi]
    exact List.Perm.refl _
  · rcases hget : (getCol s f)[i]? with _ | card
    · unfold moveCard
      simp only [hfi, hget]
      exact List.Perm.refl _
    · rw [moveCard_eq_of_found hfi hget]
      by_cases hft : f = t
      · subst hft
        rw [if_pos rfl]
        apply allCards_setCol_perm
        exact (splice_perm _ _ _).trans (perm_cons_removeAt hget).symm
      · rw [if_neg hft]
        exact allCards_transfer_perm hft (perm_cons_removeAt hget) (splice_perm _ _ _)

theorem allCards_add_perm (s : State) (c : Column) (card : Card) :
    List.Perm (allCards (reducer s (.add c card))) (card :: allCards s) := by
  cases c with
  | todo => exact List.Perm.refl _
  | inprogress =>
      show List.Perm (s.todo ++ (card :: s.inprogress) ++ s.done) _
      exact List.Perm.append_right _ List.perm_middle
  | done =>
      show List.Perm (s.todo ++ s.inprogress ++ (card :: s.done)) _
      exact List.perm_middle

theorem allCards_remove_sublist (s : State) (c : Column) (cardId : String) :
    (allCards (reducer s (.remove c cardId))).Sublist (allCards s) := by
  cases c with
  | todo =>
      exact List.Sublist.append
        (List.Sublist.append (List.filter_sublist _) (List.Sublist.refl _))
        (List.Sublist.refl _)
  | inprogress =>
      exact List.Sublist.append
        (List.Sublist.append (List.Sublist.refl _) (List.filter_sublist _))
        (List.Sublist.refl _)
  | done =>
      exact List.Sublist.append (List.Sublist.refl _) (List.filter_sublist _)

theorem update_ids_eq (s : State) (c : Column) (cardId : String) {ch : Changes}
    (h : ch.id = none) :
    (allCards (reducer s (.update c cardId ch))).map Card.id =
      (allCards s).map Card.id := by
  have hcard : ∀ x : Card,
      (if x.id == cardId then applyChanges x ch else x).id = x.id := by
    intro x
    by_cases hx : x.id == cardId
    · simp [hx, applyChanges, h]
    · simp [hx]
  have hmap : ∀ l : List Card,
      ((l.map (fun x => if x.id == cardId then applyChanges x ch else x)).map
        Card.id) = l.map Card.id := by
    intro l
    rw [List.map_map]
    exact List.map_congr_left (fun a _ => hcard a)
  cases c <;> simp [reducer, setCol, getCol, allCards, hmap] <;>
    intro a _ <;> by_cases hx : a.id = cardId <;> simp [hx, applyChanges, h]

/-! ### The dedup-by-text filter -/

theorem mem_of_mem_dedupByTextAux {seen : List String} {l : List Activity}
    {x : Activity} (h : x ∈ dedupByTextAux seen l) : x ∈ l := by
  induction l generalizing seen with
  | nil => simp [dedupByTextAux] at h
  | cons a l ih =>
    rw [dedupByTextAux] at h
    by_cases ha : a.text ∈ seen
    · rw [if_pos ha] at h
      exact List.mem_cons_of_mem _ (ih h)
    · rw [if_neg ha] at h
      rcases List.mem_cons.mp h with rfl | h'
      · exact List.mem_cons_self _ _
      · exact List.mem_cons_of_mem _ (ih h')

theorem dedupByTextAux_nodup_and_unseen (seen : List String)
    (l : List Activity) :
    ((dedupByTextAux seen l).map Activity.text).Nodup ∧
      ∀ a ∈ dedupByTextAux seen l, a.text ∉ seen := by
  induction l generalizing seen with
  | nil => simp [dedupByTextAux]
  | cons a l ih =>
    rw [dedupByTextAux]
    by_cases ha : a.text ∈ seen
    · rw [if_pos ha]
      exact ih seen
    · rw [if_neg ha]
      obtain ⟨ihn, ihs⟩ := ih (a.text :: seen)
      refine ⟨?_, ?_⟩
      · rw [List.map_cons, List.nodup_cons]
        refine ⟨?_, ihn⟩
        intro hmem
        rcases List.mem_map.mp hmem with ⟨b, hb, hbt⟩
        have hbs := ihs b hb
        rw [hbt] at hbs
        exact hbs (List.mem_cons_self _ _)
      · intro b hb
        rcases List.mem_cons.mp hb with rfl | hb'
        · exact ha
        · intro hbseen
          exact ihs b hb' (List.mem_cons_of_mem _ hbseen)

theorem dedupByTextAux_append_dup {seen : List String} {l : List Activity}
    {a : Activity} (h : a.text ∈ seen ∨ a.text ∈ l.map Activity.text) :
    dedupByTextAux seen (l ++ [a]) = dedupByTextAux seen l := by
  induction l generalizing seen with
  | nil =>
    rcases h with h | h
    · simp [dedupByTextAux, h]
    · simp at h
  | cons b l ih =>
    rw [List.cons_append, dedupByTextAux, dedupByTextAux]
    by_cases hb : b.text ∈ seen
    · rw [if_pos hb, if_pos hb]
      apply ih
      rcases h with h | h
      · exact Or.inl h
      · rw [List.map_cons] at h
        rcases List.mem_cons.mp h with he | h'
        · exact Or.inl (by rw [he]; exact hb)
        · exact Or.inr h'
    · rw [if_neg hb, if_neg hb]
      congr 1
      apply ih
      rcases h with h | h
      · exact Or.inl (List.mem_cons_of_mem _ h)
      · rw [List.map_cons] at h
        rcases List.mem_cons.mp h with he | h'
        · exact Or.inl (by rw [he]; exact List.mem_cons_self _ _)
        · exact Or.inr h'

theorem dedupByTextAux_length_le (seen : List String) (l : List Activity) :
    (dedupByTextAux seen l).length ≤ l.length := by
  induction l generalizing seen with
  | nil => simp [dedupByTextAux]
  | cons a l ih =>
    rw [dedupByTextAux]
    by_cases ha : a.text ∈ seen
    · rw [if_pos ha]
      exact Nat.le_succ_of_le (ih seen)
    · rw [if_neg ha]
      simpa using ih (a.text :: seen)

theorem find?_mem_dedupByTextAux {seen : List String} {l : List Activity}
    {t : String} {e : Activity} (hseen : t ∉ seen)
    (hfind : l.find? (fun a => a.text == t) = some e) :
    e ∈ dedupByTextAux seen l := by
  induction l generalizing seen with
  | nil => simp at hfind
  | cons b l ih =>
    rw [dedupByTextAux]
    by_cases hb : b.text == t
    · rw [List.find?_cons_of_pos (p := fun a : Activity => a.text == t) _ hb] at hfind
      cases hfind
      have hbt : e.text = t := by simpa using hb
      rw [if_neg (by rw [hbt]; exact hseen)]
      exact List.mem_cons_self _ _
    · rw [List.find?_cons_of_neg (p := fun a : Activity => a.text == t) _ hb] at hfind
      by_cases hbs : b.text ∈ seen
      · rw [if_pos hbs]
        exact ih hseen hfind
      · rw [if_neg hbs]
        refine List.mem_cons_of_mem _ (ih ?_ hfind)
        intro hmem
        rcases List.mem_cons.mp hmem with he | h'
        · exact hb (by simp [he])
        · exact hseen h'

theorem countP_le_one_of_text_nodup {l : List Activity} {t : String}
    (h : (l.map Activity.text).Nodup) :
    l.countP (fun a => a.text == t) ≤ 1 := by
  induction l with
  | nil => simp
  | cons b l ih =>
    rw [List.map_cons, List.nodup_cons] at h
    by_cases hb : b.text == t
    · rw [List.countP_cons_of_pos (fun a : Activity => a.text == t) _ hb]
      have hz : l.countP (fun a => a.text == t) = 0 := by
        rw [List.countP_eq_zero]
        intro a ha hpa
        have hat : a.text = t := by simpa using hpa
        have hbt : b.text = t := by simpa using hb
        exact h.1 (List.mem_map.mpr ⟨a, ha, by rw [hat, hbt]⟩)
      omega
    · rw [List.countP_cons_of_neg (fun a : Activity => a.text == t) _ hb]
      exact ih h.2

theorem countP_eq_one_of_mem_text_nodup {l : List Activity} {t : String}
    {e : Activity} (h : (l.map Activity.text).Nodup) (he : e ∈ l)
    (het : e.text = t) :
    l.countP (fun a => a.text == t) = 1 := by
  have hle := countP_le_one_of_text_nodup (t := t) h
  have hpos : 0 < l.countP (fun a => a.text == t) :=
    List.countP_pos_iff.mpr ⟨e, he, by simp [het]⟩
  omega

theorem eq_of_mem_text_nodup {l : List Activity}
    (h : (l.map Activity.text).Nodup) {a b : Activity} (ha : a ∈ l)
    (hb : b ∈ l) (hab : a.text = b.text) : a = b := by
  induction l with
  | nil => simp at ha
  | cons c l ih =>
    rw [List.map_cons, List.nodup_cons] at h
    rcases List.mem_cons.mp ha with rfl | ha' <;>
      rcases List.mem_cons.mp hb with rfl | hb'
    · rfl
    · exact absurd (List.mem_map.mpr ⟨b, hb', hab.symm⟩) h.1
    · exact absurd (List.mem_map.mpr ⟨a, ha', hab⟩) h.1
    · exact ih h.2 ha' hb'

/-! ### The slice(-5) truncation -/

theorem lastN_length_le (n : Nat) (l : List α) : (lastN n l).length ≤ n := by
  simp only [lastN, List.length_drop]
  omega

theorem lastN_eq_of_le {n : Nat} {l : List α} (h : l.length ≤ n) :
    lastN n l = l := by
  simp [lastN, Nat.sub_eq_zero_of_le h]

theorem lastN_sublist (n : Nat) (l : List α) : (lastN n l).Sublist l :=
  List.drop_sublist _ _

/-! ### Claim theorems -/

/-- C5: a move request whose cardId does not occur in the source column
leaves the whole state unchanged — a silent no-op, not an error. -/
theorem move_absent_card_noop (s : State) (f t : Column) (cardId : String)
    (idx : Option Int) (habsent : ∀ c ∈ getCol s f, c.id ≠ cardId) :
    reducer s (.move f t cardId idx) = s := by
  have hnone : findIndex (fun c => c.id == cardId) (getCol s f) = none := by
    rw [findIndex_eq_none_iff]
    intro a ha
    simpa using habsent a ha
  show moveCard s f t cardId idx = s
  unfold moveCard
  simp only [hnone]

/-- C2: moving a card within its own column (card present) yields a
permutation of the column (same multiset of cards, hence of ids), with the
moved card — the first occurrence of the id — placed at the requested index
clamped to the post-removal length; an omitted index appends to the end. -/
theorem move_within_column_perm_and_position (s : State) (col : Column)
    (cardId : String) (idx : Option Int)
    (hpresent : ∃ c ∈ getCol s col, c.id = cardId) :
    ∃ i card,
      findIndex (fun c => c.id == cardId) (getCol s col) = some i ∧
      (getCol s col)[i]? = some card ∧ card.id = cardId ∧
      List.Perm (getCol (reducer s (.move col col cardId idx)) col)
        (getCol s col) ∧
      List.Perm ((getCol (reducer s (.move col col cardId idx)) col).map
        Card.id) ((getCol s col).map Card.id) ∧
      (getCol (reducer s (.move col col cardId idx))
          col)[clampIdx (idx.getD ((getCol s col).length : Int))
            ((getCol s col).length - 1)]? = some card ∧
      (idx = none →
        (getCol (reducer s (.move col col cardId idx))
            col)[(getCol s col).length - 1]? = some card) := by
  have hex : ∃ c ∈ getCol s col, (fun c : Card => c.id == cardId) c = true := by
    obtain ⟨c, hc, he⟩ := hpresent
    exact ⟨c, hc, by simp [he]⟩
  obtain ⟨i, hfi⟩ := findIndex_of_exists hex
  obtain ⟨card, hget, hpa⟩ := findIndex_some hfi
  have hlt : i < (getCol s col).length := by
    by_contra hc
    rw [List.getElem?_eq_none (Nat.le_of_not_lt hc)] at hget
    cases hget
  have hNlen : ((getCol s col).take i ++ (getCol s col).drop (i + 1)).length =
      (getCol s col).length - 1 := length_removeAt hlt
  have hred : reducer s (.move col col cardId idx) =
      setCol s col
        ((((getCol s col).take i ++ (getCol s col).drop (i + 1)).take
            (clampIdx (idx.getD ((getCol s col).length : Int))
              ((getCol s col).length - 1))) ++
          card ::
            (((getCol s col).take i ++ (getCol s col).drop (i + 1)).drop
              (clampIdx (idx.getD ((getCol s col).length : Int))
                ((getCol s col).length - 1)))) := by
    show moveCard s col col cardId idx = _
    rw [moveCard_eq_of_found hfi hget, if_pos rfl, hNlen]
  have hresult : getCol (reducer s (.move col col cardId idx)) col =
      (((getCol s col).take i ++ (getCol s col).drop (i + 1)).take
          (clampIdx (idx.getD ((getCol s col).length : Int))
            ((getCol s col).length - 1))) ++
        card ::
          (((getCol s col).take i ++ (getCol s col).drop (i + 1)).drop
            (clampIdx (idx.getD ((getCol s col).length : Int))
              ((getCol s col).length - 1))) := by
    rw [hred, getCol_setCol_self]
  have hperm : List.Perm (getCol (reducer s (.move col col cardId idx)) col)
      (getCol s col) := by
    rw [hresult]
    exact (splice_perm _ _ _).trans (perm_cons_removeAt hget).symm
  have hk_le : clampIdx (idx.getD ((getCol s col).length : Int))
      ((getCol s col).length - 1) ≤
      ((getCol s col).take i ++ (getCol s col).drop (i + 1)).length := by
    rw [hNlen]
    exact clampIdx_le _ _
  have hpos : (getCol (reducer s (.move col col cardId idx))
      col)[clampIdx (idx.getD ((getCol s col).length : Int))
        ((getCol s col).length - 1)]? = some card := by
    rw [hresult]
    exact splice_getElem _ _ _ hk_le
  refine ⟨i, card, hfi, hget, by simpa using hpa, hperm, hperm.map Card.id,
    hpos, ?_⟩
  intro hnone
  subst hnone
  have hclamp : clampIdx (((getCol s col).length : Int))
      ((getCol s col).length - 1) = (getCol s col).length - 1 := by
    apply clampIdx_of_ge
    omega
  rw [Option.getD] at hpos
  rwa [hclamp] at hpos

/-- C3: moving a card (first occurrence of the id) across two distinct
columns removes exactly that card from the source, inserts it at the
clamped target index of the destination (defaulting to the end), leaves the
third column untouched, and permutes no other cards (the multiset of all
cards on the board is preserved, so nothing is duplicated). -/
theorem move_across_columns_transfer (s : State) (f t : Column)
    (cardId : String) (idx : Option Int) (hft : f ≠ t)
    (hpresent : ∃ c ∈ getCol s f, c.id = cardId) :
    ∃ i card,
      findIndex (fun c => c.id == cardId) (getCol s f) = some i ∧
      (getCol s f)[i]? = some card ∧ card.id = cardId ∧
      getCol (reducer s (.move f t cardId idx)) f = (getCol s f).eraseIdx i ∧
      (getCol (reducer s (.move f t cardId idx))
          t)[clampIdx (idx.getD ((getCol s t).length : Int))
            (getCol s t).length]? = some card ∧
      (getCol (reducer s (.move f t cardId idx)) t).eraseIdx
          (clampIdx (idx.getD ((getCol s t).length : Int))
            (getCol s t).length) = getCol s t ∧
      (getCol (reducer s (.move f t cardId idx)) t).length =
        (getCol s t).length + 1 ∧
      (∀ u, u ≠ f → u ≠ t →
        getCol (reducer s (.move f t cardId idx)) u = getCol s u) ∧
      List.Perm (allCards (reducer s (.move f t cardId idx))) (allCards s) := by
  have hex : ∃ c ∈ getCol s f, (fun c : Card => c.id == cardId) c = true := by
    obtain ⟨c, hc, he⟩ := hpresent
    exact ⟨c, hc, by simp [he]⟩
  obtain ⟨i, hfi⟩ := findIndex_of_exists hex
  obtain ⟨card, hget, hpa⟩ := findIndex_some hfi
  have hred : reducer s (.move f t cardId idx) =
      setCol (setCol s f ((getCol s f).take i ++ (getCol s f).drop (i + 1))) t
        (((getCol s t).take
            (clampIdx (idx.getD ((getCol s t).length : Int))
              (getCol s t).length)) ++
          card ::
            ((getCol s t).drop
              (clampIdx (idx.getD ((getCol s t).length : Int))
                (getCol s t).length))) := by
    show moveCard s f t cardId idx = _
    rw [moveCard_eq_of_found hfi hget, if_neg hft]
  have hsource : getCol (reducer s (.move f t cardId idx)) f =
      (getCol s f).eraseIdx i := by
    rw [hred, getCol_setCol_ne _ _ hft, getCol_setCol_self,
      List.eraseIdx_eq_take_drop_succ]
  have hdest : getCol (reducer s (.move f t cardId idx)) t =
      ((getCol s t).take
          (clampIdx (idx.getD ((getCol s t).length : Int))
            (getCol s t).length)) ++
        card ::
          ((getCol s t).drop
            (clampIdx (idx.getD ((getCol s t).length : Int))
              (getCol s t).length)) := by
    rw [hred, getCol_setCol_self]
  have hk_le : clampIdx (idx.getD ((getCol s t).length : Int))
      (getCol s t).length ≤ (getCol s t).length := clampIdx_le _ _
  refine ⟨i, card, hfi, hget, by simpa using hpa, hsource, ?_, ?_, ?_, ?_, ?_⟩
  · rw [hdest]
    exact splice_getElem _ _ _ hk_le
  · rw [hdest]
    exact splice_eraseIdx _ _ _ hk_le
  · rw [hdest]
    simp only [List.length_append, List.length_take, List.length_cons,
      List.length_drop]
    omega
  · intro u hu1 hu2
    rw [hred, getCol_setCol_ne _ _ hu2, getCol_setCol_ne _ _ hu1]
  · exact allCards_moveCard_perm s f t cardId idx

/-- C4 (amended): from a state whose card ids form a set across the three
columns, every reducer action preserves that invariant, provided an added
card's id is fresh, an update's changes object does not set the id field,
and a wholesale replacement state itself satisfies the invariant. -/
theorem reducer_preserves_id_nodup (s : State) (a : Action) (hs : Inv s)
    (ha : match a with
      | .add _ card => card.id ∉ (allCards s).map Card.id
      | .update _ _ ch => ch.id = none
      | .set s2 => Inv s2
      | _ => True) :
    Inv (reducer s a) := by
  cases a with
  | add c card =>
      have hperm := (allCards_add_perm s c card).map Card.id
      show ((allCards (reducer s (.add c card))).map Card.id).Nodup
      rw [hperm.nodup_iff, List.map_cons, List.nodup_cons]
      exact ⟨ha, hs⟩
  | move f t cardId idx =>
      have hperm := (allCards_moveCard_perm s f t cardId idx).map Card.id
      show ((allCards (moveCard s f t cardId idx)).map Card.id).Nodup
      exact hperm.nodup_iff.mpr hs
  | remove c cardId =>
      have hsub := (allCards_remove_sublist s c cardId).map Card.id
      exact List.Nodup.sublist hsub hs
  | update c cardId ch =>
      show ((allCards (reducer s (.update c cardId ch))).map Card.id).Nodup
      rw [update_ids_eq s c cardId ha]
      exact hs
  | set s2 => exact ha

/-- C7 (amended): update touches only the named column; an unknown cardId
leaves the state unchanged; a matching card is replaced by the object-spread
merge with the changes object (title and description merged; the id is
preserved whenever the changes object does not set it), and every
non-matching card keeps its exact value and position. -/
theorem update_frame_conditions (s : State) (col : Column) (cardId : String)
    (ch : Changes) :
    (∀ u, u ≠ col → getCol (reducer s (.update col cardId ch)) u = getCol s u) ∧
    ((∀ c ∈ getCol s col, c.id ≠ cardId) →
      reducer s (.update col cardId ch) = s) ∧
    (getCol (reducer s (.update col cardId ch)) col).length =
      (getCol s col).length ∧
    (∀ (i : Nat) (c : Card), (getCol s col)[i]? = some c →
      (getCol (reducer s (.update col cardId ch)) col)[i]? =
        some (if c.id == cardId then applyChanges c ch else c)) ∧
    (∀ (i : Nat) (c : Card), (getCol s col)[i]? = some c → c.id ≠ cardId →
      (getCol (reducer s (.update col cardId ch)) col)[i]? = some c) ∧
    (ch.id = none →
      ∀ (i : Nat) (c : Card), (getCol s col)[i]? = some c → c.id = cardId →
      (getCol (reducer s (.update col cardId ch)) col)[i]? =
        some ({ id := c.id, title := ch.title.getD c.title,
                description :=
                  match ch.description with
                  | none => c.description
                  | some d => d } : Card)) := by
  have hres : getCol (reducer s (.update col cardId ch)) col =
      (getCol s col).map
        (fun c => if c.id == cardId then applyChanges c ch else c) :=
    getCol_setCol_self s col _
  have hpoint : ∀ (i : Nat) (c : Card), (getCol s col)[i]? = some c →
      (getCol (reducer s (.update col cardId ch)) col)[i]? =
        some (if c.id == cardId then applyChanges c ch else c) := by
    intro i c hc
    rw [hres, List.getElem?_map, hc]
    rfl
  refine ⟨?_, ?_, ?_, hpoint, ?_, ?_⟩
  · intro u hu
    exact getCol_setCol_ne s _ hu
  · intro habsent
    have hmap : (getCol s col).map
        (fun c => if c.id == cardId then applyChanges c ch else c) =
        (getCol s col).map id := by
      apply List.map_congr_left
      intro c hc
      have : ¬ (c.id == cardId) = true := by simpa using habsent c hc
      simp [this]
    show setCol s col ((getCol s col).map
        (fun c => if c.id == cardId then applyChanges c ch else c)) = s
    rw [hmap, List.map_id, setCol_getCol]
  · rw [hres, List.length_map]
  · intro i c hc hne
    rw [hpoint i c hc, if_neg (by simpa using hne)]
  · intro hid i c hc heq
    rw [hpoint i c hc, if_pos (by simp [heq])]
    simp [applyChanges, hid]

/-- The example card of the spec's add/remove roundtrip. -/
def buyMilk : Card := { id := "x", title := "Buy milk", description := none }

/-- C8: adding the "Buy milk" card with fresh id "x" to the todo column and
then removing id "x" restores the original state exactly; the other two
columns are untouched in between. -/
theorem add_then_remove_roundtrip (s : State)
    (hfresh : ∀ c ∈ s.todo, c.id ≠ "x") :
    (reducer s (.add .todo buyMilk)).inprogress = s.inprogress ∧
    (reducer s (.add .todo buyMilk)).done = s.done ∧
    reducer (reducer s (.add .todo buyMilk)) (.remove .todo "x") = s := by
  refine ⟨rfl, rfl, ?_⟩
  have h2 : reducer (reducer s (.add .todo buyMilk)) (.remove .todo "x") =
      { s with todo := (buyMilk :: s.todo).filter (fun c => c.id != "x") } :=
    rfl
  have hx : (buyMilk :: s.todo).filter (fun c => c.id != "x") = s.todo := by
    rw [List.filter_cons_of_neg (by simp [buyMilk])]
    rw [List.filter_eq_self]
    intro a ha
    simpa using hfresh a ha
  rw [h2, hx]

/-- C9: the derived activity text per mutation kind: add uses the action
card's title; remove, move and update look the title up in the pre-mutation
state (move: in the source column) and fall back to the raw card id when no
card matches; move appends the destination display name; set derives no
text. -/
theorem activity_text_derivation (s : State) :
    (∀ col card,
      activityText s (.add col card) = some (card.title ++ " created")) ∧
    (∀ col cardId c,
      (getCol s col).find? (fun x => x.id == cardId) = some c →
      activityText s (.remove col cardId) = some (c.title ++ " deleted")) ∧
    (∀ col cardId, (∀ c ∈ getCol s col, c.id ≠ cardId) →
      activityText s (.remove col cardId) = some (cardId ++ " deleted")) ∧
    (∀ f t cardId idx c,
      (getCol s f).find? (fun x => x.id == cardId) = some c →
      activityText s (.move f t cardId idx) =
        some (c.title ++ " moved to " ++ getReadableName t)) ∧
    (∀ f t cardId idx, (∀ c ∈ getCol s f, c.id ≠ cardId) →
      activityText s (.move f t cardId idx) =
        some (cardId ++ " moved to " ++ getReadableName t)) ∧
    (∀ col cardId ch c,
      (getCol s col).find? (fun x => x.id == cardId) = some c →
      activityText s (.update col cardId ch) = some (c.title ++ " updated")) ∧
    (∀ col cardId ch, (∀ c ∈ getCol s col, c.id ≠ cardId) →
      activityText s (.update col cardId ch) = some (cardId ++ " updated")) ∧
    (∀ s2, activityText s (.set s2) = none) := by
  refine ⟨fun col card => rfl, ?_, ?_, ?_, ?_, ?_, ?_, fun s2 => rfl⟩
  · intro col cardId c hc
    simp [activityText, hc]
  · intro col cardId h
    have hnone : (getCol s col).find? (fun x => x.id == cardId) = none :=
      List.find?_eq_none.mpr (fun x hx => by simpa using h x hx)
    simp [activityText, hnone]
  · intro f t cardId idx c hc
    simp [activityText, hc]
  · intro f t cardId idx h
    have hnone : (getCol s f).find? (fun x => x.id == cardId) = none :=
      List.find?_eq_none.mpr (fun x hx => by simpa using h x hx)
    simp [activityText, hnone]
  · intro col cardId ch c hc
    simp [activityText, hc]
  · intro col cardId ch h
    have hnone : (getCol s col).find? (fun x => x.id == cardId) = none :=
      List.find?_eq_none.mpr (fun x hx => by simpa using h x hx)
    simp [activityText, hnone]

/-- C10: remove deletes every card whose id matches, not only the first:
the result column contains no card with that id, is a sublist of the
original (order of survivors preserved), keeps the multiplicity of every
non-matching card, and other columns are untouched. -/
theorem remove_filters_all_matching (s : State) (col : Column)
    (cardId : String) :
    (∀ c ∈ getCol (reducer s (.remove col cardId)) col, c.id ≠ cardId) ∧
    (getCol (reducer s (.remove col cardId)) col).Sublist (getCol s col) ∧
    (∀ c : Card, c.id ≠ cardId →
      (getCol (reducer s (.remove col cardId)) col).count c =
        (getCol s col).count c) ∧
    (∀ u, u ≠ col → getCol (reducer s (.remove col cardId)) u = getCol s u) := by
  have hres : getCol (reducer s (.remove col cardId)) col =
      (getCol s col).filter (fun c => c.id != cardId) :=
    getCol_setCol_self s col _
  refine ⟨?_, ?_, ?_, ?_⟩
  · intro c hc
    rw [hres] at hc
    simpa using List.of_mem_filter hc
  · rw [hres]
    exact List.filter_sublist _
  · intro c hc
    rw [hres]
    exact List.count_filter (by simpa using hc)
  · intro u hu
    exact getCol_setCol_ne s _ hu

/-- C1 (amended): pushing a text that already occurs in a log of at most 5
entries leaves exactly one entry with that text, and it is the oldest
write: the first pre-existing entry with that text survives with its
original timestamp, and the newly appended duplicate is dropped. -/
theorem activity_push_duplicate_first_write_survives (now : Nat)
    (s : ActivityState) (t : String) (e : Activity)
    (hlen : s.actions.length ≤ 5)
    (hfind : s.actions.find? (fun a => a.text == t) = some e) :
    (activityReducer now s (.push t)).actions.countP
        (fun a => a.text == t) = 1 ∧
      e ∈ (activityReducer now s (.push t)).actions ∧
      ∀ b ∈ (activityReducer now s (.push t)).actions, b.text = t → b = e := by
  have hmem : e ∈ s.actions := List.mem_of_find?_eq_some hfind
  have htext : e.text = t := by simpa using List.find?_some hfind
  have hdup : dedupByText (s.actions ++ [{ text := t, ts := now }]) =
      dedupByText s.actions := by
    apply dedupByTextAux_append_dup
    exact Or.inr (List.mem_map.mpr ⟨e, hmem, htext⟩)
  have hlen2 : (dedupByText s.actions).length ≤ 5 :=
    le_trans (dedupByTextAux_length_le [] s.actions) hlen
  have hred : (activityReducer now s (.push t)).actions =
      dedupByText s.actions := by
    show lastN 5 (dedupByText (s.actions ++ [{ text := t, ts := now }])) = _
    rw [hdup, lastN_eq_of_le hlen2]
  have hnd := (dedupByTextAux_nodup_and_unseen [] s.actions).1
  have hein : e ∈ dedupByText s.actions :=
    find?_mem_dedupByTextAux (by simp) hfind
  refine ⟨?_, ?_, ?_⟩
  · rw [hred]
    exact countP_eq_one_of_mem_text_nodup hnd hein htext
  · rw [hred]
    exact hein
  · intro b hb hbt
    rw [hred] at hb
    exact eq_of_mem_text_nodup hnd hb hein (by rw [hbt, htext])

/-- C6 (amended): after a push or a hydration from a stored array of any
length, the activity log has at most 5 entries and no two entries share a
text; after a wholesale replacement (the set action) the log has at most 5
entries, but duplicate texts of the replacement array are not collapsed. -/
theorem activity_log_bound_and_dedup :
    (∀ now s t, (activityReducer now s (.push t)).actions.length ≤ 5 ∧
      ((activityReducer now s (.push t)).actions.map Activity.text).Nodup) ∧
    (∀ now s acts, (activityReducer now s (.set acts)).actions.length ≤ 5) ∧
    (∀ parsed, (hydrateActivity parsed).actions.length ≤ 5 ∧
      ((hydrateActivity parsed).actions.map Activity.text).Nodup) := by
  refine ⟨fun now s t => ⟨?_, ?_⟩, fun now s acts => ?_, fun parsed => ⟨?_, ?_⟩⟩
  · exact lastN_length_le 5 _
  · have hnd := (dedupByTextAux_nodup_and_unseen []
      (s.actions ++ [{ text := t, ts := now }])).1
    exact List.Nodup.sublist ((lastN_sublist 5 _).map _) hnd
  · exact lastN_length_le 5 _
  · exact lastN_length_le 5 _
  · have hnd := (dedupByTextAux_nodup_and_unseen [] parsed).1
    exact List.Nodup.sublist ((lastN_sublist 5 _).map _) hnd

/-! ### Concrete boards for counterexamples and witnesses -/

/-- A concrete card with id "a". -/
def cardA : Card := { id := "a", title := "Card A", description := none }

/-- A concrete card with id "b". -/
def cardB : Card := { id := "b", title := "Card B", description := none }

/-- A concrete card with id "c". -/
def cardC : Card := { id := "c", title := "Card C", description := none }

/-- A board with three cards in the todo column. -/
def sampleState : State :=
  { todo := [cardA, cardB, cardC], inprogress := [], done := [] }

/-- A board with one card each in todo and inprogress. -/
def twoColState : State :=
  { todo := [cardA], inprogress := [cardB], done := [] }

/-! ### Counterexamples -/

/-- C1 counterexample: pushing text "t" at timestamp 2 onto a log already
holding the entry ("t", 1) keeps the old entry with its old timestamp and
drops the new one, so the surviving entry is not the most recent write and
the new timestamp does not survive. -/
theorem activity_push_duplicate_new_write_dropped :
    (activityReducer 2 { actions := [{ text := "t", ts := 1 }] }
        (.push "t")).actions = [{ text := "t", ts := 1 }] ∧
    ({ text := "t", ts := 2 } : Activity) ∉
      (activityReducer 2 { actions := [{ text := "t", ts := 1 }] }
        (.push "t")).actions := by
  decide

/-- C4 counterexample: from the invariant-satisfying board with card "a" in
todo and card "b" in inprogress, an update whose changes object sets
id := "b" yields a board in which id "b" occurs in two columns. -/
theorem update_with_id_change_breaks_nodup :
    Inv twoColState ∧
      ¬ Inv (reducer twoColState (.update .todo "a" { id := some "b" })) := by
  decide

/-- C6 counterexample: the set action truncates to 5 but does not
deduplicate: replacing the log with two entries of the same text keeps
both. -/
theorem activity_set_keeps_duplicate_texts :
    (activityReducer 0 { actions := [] }
        (.set [{ text := "t", ts := 1 }, { text := "t", ts := 2 }])).actions =
      [{ text := "t", ts := 1 }, { text := "t", ts := 2 }] ∧
    ¬ ((activityReducer 0 { actions := [] }
        (.set [{ text := "t", ts := 1 },
               { text := "t", ts := 2 }])).actions.map
          Activity.text).Nodup := by
  decide

/-- C7 counterexample: an update whose changes object sets the id field
overwrites the card's id, contradicting the claim that the id is always
unchanged: updating card "a" with id := "z" turns the todo ids into ["z"]. -/
theorem update_can_overwrite_id :
    (reducer { todo := [cardA], inprogress := [], done := [] }
        (.update .todo "a" { id := some "z" })).todo.map Card.id = ["z"] ∧
    (reducer { todo := [cardA], inprogress := [], done := [] }
        (.update .todo "a" { id := some "z" })).todo.map Card.id ≠ ["a"] := by
  decide

/-! ### Witnesses -/

/-- Witness for C1 at a concrete input: log [("t",1)], push "t" at time 2. -/
theorem activity_push_duplicate_first_write_survives_witness :
    (activityReducer 2 { actions := [{ text := "t", ts := 1 }] }
        (.push "t")).actions.countP (fun a => a.text == "t") = 1 ∧
      ({ text := "t", ts := 1 } : Activity) ∈
        (activityReducer 2 { actions := [{ text := "t", ts := 1 }] }
          (.push "t")).actions ∧
      ∀ b ∈ (activityReducer 2 { actions := [{ text := "t", ts := 1 }] }
          (.push "t")).actions,
        b.text = "t" → b = { text := "t", ts := 1 } :=
  activity_push_duplicate_first_write_survives 2
    { actions := [{ text := "t", ts := 1 }] } "t" { text := "t", ts := 1 }
    (by decide) (by decide)

/-- Witness for C2 at a concrete input: moving card "b" of [a, b, c] within
the todo column to index 0. -/
theorem move_within_column_perm_and_position_witness :
    ∃ i card,
      findIndex (fun c => c.id == "b") (getCol sampleState .todo) = some i ∧
      (getCol sampleState .todo)[i]? = some card ∧ card.id = "b" ∧
      List.Perm
        (getCol (reducer sampleState (.move .todo .todo "b" (some 0))) .todo)
        (getCol sampleState .todo) ∧
      List.Perm
        ((getCol (reducer sampleState (.move .todo .todo "b" (some 0)))
          .todo).map Card.id)
        ((getCol sampleState .todo).map Card.id) ∧
      (getCol (reducer sampleState (.move .todo .todo "b" (some 0)))
          .todo)[clampIdx ((some 0 : Option Int).getD
              ((getCol sampleState .todo).length : Int))
            ((getCol sampleState .todo).length - 1)]? = some card ∧
      ((some 0 : Option Int) = none →
        (getCol (reducer sampleState (.move .todo .todo "b" (some 0)))
            .todo)[(getCol sampleState .todo).length - 1]? = some card) :=
  move_within_column_perm_and_position sampleState .todo "b" (some 0)
    (by decide)

/-- Witness for C3 at a concrete input: moving card "a" of [a, b, c] from
todo to done with an omitted target index. -/
theorem move_across_columns_transfer_witness :
    ∃ i card,
      findIndex (fun c => c.id == "a") (getCol sampleState .todo) = some i ∧
      (getCol sampleState .todo)[i]? = some card ∧ card.id = "a" ∧
      getCol (reducer sampleState (.move .todo .done "a" none)) .todo =
        (getCol sampleState .todo).eraseIdx i ∧
      (getCol (reducer sampleState (.move .todo .done "a" none))
          .done)[clampIdx ((none : Option Int).getD
            ((getCol sampleState .done).length : Int))
            (getCol sampleState .done).length]? = some card ∧
      (getCol (reducer sampleState (.move .todo .done "a" none))
          .done).eraseIdx
          (clampIdx ((none : Option Int).getD
            ((getCol sampleState .done).length : Int))
            (getCol sampleState .done).length) = getCol sampleState .done ∧
      (getCol (reducer sampleState (.move .todo .done "a" none)) .done).length =
        (getCol sampleState .done).length + 1 ∧
      (∀ u, u ≠ Column.todo → u ≠ Column.done →
        getCol (reducer sampleState (.move .todo .done "a" none)) u =
          getCol sampleState u) ∧
      List.Perm (allCards (reducer sampleState (.move .todo .done "a" none)))
        (allCards sampleState) :=
  move_across_columns_transfer sampleState .todo .done "a" none (by decide)
    (by decide)

/-- Witness for C4 at a concrete input: moving card "a" from todo to done
preserves the id invariant of the sample board. -/
theorem reducer_preserves_id_nodup_witness :
    Inv (reducer sampleState (.move .todo .done "a" (some 0))) :=
  reducer_preserves_id_nodup sampleState (.move .todo .done "a" (some 0))
    (by decide) trivial

/-- Witness for C5 at a concrete input: moving the absent id "zz" is a
no-op on the sample board. -/
theorem move_absent_card_noop_witness :
    reducer sampleState (.move .todo .done "zz" (some 0)) = sampleState :=
  move_absent_card_noop sampleState .todo .done "zz" (some 0) (by decide)

/-- Witness for C8 at a concrete input: the add/remove roundtrip on the
sample board, whose todo column has no card with id "x". -/
theorem add_then_remove_roundtrip_witness :
    (reducer sampleState (.add .todo buyMilk)).inprogress =
      sampleState.inprogress ∧
    (reducer sampleState (.add .todo buyMilk)).done = sampleState.done ∧
    reducer (reducer sampleState (.add .todo buyMilk)) (.remove .todo "x") =
      sampleState :=
  add_then_remove_roundtrip sampleState (by decide)

end Kanban
